import Mathlib

/-!
Verification of the shepherd simulation (superwhiskers/shepherd).

This file gives a shallow embedding of the core of the repository:

* the response model of `lib/src/sheep.rs` (current library implementation)
  and of `src/sheep.rs` (the older binary implementation),
* the tag-graph operations of `lib/src/graph.rs` and `src/graph.rs`
  (`create_nodes`, `add_new_tag_groups`, `add_to_tag_groups`),
* the per-shepherd event trace of `simulate_epoch` in `lib/src/simulation.rs`.

Modelling conventions:

* `f64` arithmetic is modelled with exact rational arithmetic (`Rat`).  Every
  concrete value appearing in the theorems below (powers of two, ratios of
  small integers, small squares) is exactly representable in `f64`, so the
  rational model agrees with the floating-point computation there.
* The rng (`rand::Rng`) is modelled as a bundle of independent draw streams,
  one per distribution used by the code, plus the shuffle operation.  A
  Fisher-Yates shuffle always produces a permutation of its input, which is
  recorded as a proof field.
* Rust `HashSet` values are modelled as `Finset Nat`.  A `HashSet` iterates in
  an unspecified order determined by its randomly seeded hasher; that order is
  modelled by a separate `HashOrder` oracle which enumerates a `Finset` in
  some order.  It is deliberately not part of `Rng`, because it is not
  derived from the user-supplied rng seed.
* Fallible operations return `Except StatsError`; a possible out-of-bounds
  panic is modelled with `Option` (`none` = panic).
-/

/-- Rating of one feed item, from `Response` in `feed.rs`. -/
inductive Response where
  | Positive
  | Neutral
  | Negative
deriving DecidableEq, Repr

/-- Error kind of `statrs`: `Poisson::new` rejects a rate that is NaN or
non-positive with a bad-parameters error (surfaced as `NumericDomain`). -/
inductive StatsError where
  | badParams
deriving DecidableEq, Repr

/-- A directed weighted edge of the simulation graph: source, target, weight. -/
abbrev Edge : Type := Nat × Nat × Nat

/-- Model of the seeded rng passed to every stochastic operation.  Each
distribution the code samples from is modelled as its own countable stream of
draws; `shuffle` models `slice::shuffle`, which always permutes its input. -/
structure Rng where
  shuffle : List Nat → List Nat
  shuffle_perm : ∀ l, List.Perm (shuffle l) l
  poisson : Nat → Nat
  weight : Nat → Nat
  coin : Nat → Rat

/-- Model of the iteration order of Rust `HashSet`s: an enumeration of every
`Finset Nat` listing each element exactly once.  The order is seeded by the
per-instance `RandomState` of the set, not by the simulation rng. -/
structure HashOrder where
  enum : Finset Nat → List Nat
  enum_nodup : ∀ s, (enum s).Nodup
  enum_mem : ∀ s x, x ∈ enum s ↔ x ∈ s

/-- Model of `rng.gen_range(lo..=hi)` applied to the raw draw `w`. -/
def genRange (lo hi w : Nat) : Nat := lo + w % (hi + 1 - lo)

/-- Probability of a positive rating, from `lib/src/sheep.rs`:
`2f64.powf(distance.neg())`, i.e. `2 ^ (-d)`. -/
def p_positive (d : Nat) : Rat := (2 : Rat) ^ (-(d : Int))

/-- Probability of a neutral rating, from `lib/src/sheep.rs`:
`9f64.powf(distance) / 10f64.powf(distance)`, i.e. `9^d / 10^d`. -/
def p_neutral (d : Nat) : Rat := (9 : Rat) ^ d / (10 : Rat) ^ d

/-- The positive-rating threshold of the older binary, from `src/sheep.rs`:
`distance.neg().powi(2)`, i.e. `(-d)^2`. -/
def p_positive_bin (d : Nat) : Rat := (-(d : Rat)) ^ 2

/-- The neutral-rating threshold of the older binary, from `src/sheep.rs`:
`distance.powi(9) / distance.powi(10)`, i.e. `d^9 / d^10`. -/
def p_neutral_bin (d : Nat) : Rat := (d : Rat) ^ 9 / (d : Rat) ^ 10

/-- The rating match of `process_feed` in `lib/src/sheep.rs`, applied to a
reachable item at distance `d` with uniform draw `c`. -/
def rate (d : Nat) (c : Rat) : Response :=
  if c ≤ p_positive d then .Positive
  else if c ≤ p_neutral d then .Neutral
  else .Negative

/-- The rating match of `process_feed` in `src/sheep.rs` (older binary). -/
def rate_bin (d : Nat) (c : Rat) : Response :=
  if c ≤ p_positive_bin d then .Positive
  else if c ≤ p_neutral_bin d then .Neutral
  else .Negative

/-- The node kinds of the simulation graph, from `NodeType` in `ids.rs`. -/
inductive NodeType where
  | Sheep
  | Tag
  | Item
deriving DecidableEq, Repr

/-- The simulation graph of `lib/src/graph.rs`: a directed weighted multigraph
(`Graph<NodeType, u32, Directed, usize>`).  Nodes are carried as the list of
their types, so the id of a node is its position. -/
structure SimGraph where
  nodes : List NodeType
  edges : List Edge
deriving DecidableEq, Repr

/-- Minimum weight among the parallel directed edges from `a` to `b`. -/
def minEdgeWeight? (g : SimGraph) (a b : Nat) : Option Nat :=
  (g.edges.filterMap fun e =>
    if e.1 = a ∧ e.2.1 = b then some e.2.2 else none).min?

/-- Whether the graph stores a directed edge from `a` to `b`. -/
def hasEdge (g : SimGraph) (a b : Nat) : Bool :=
  g.edges.any fun e => e.1 = a && e.2.1 = b

/-- Whether the vertex list `p` is a well-formed simple directed path of `g`
from `s` to `t`. -/
def isPath (g : SimGraph) (s t : Nat) (p : List Nat) : Bool :=
  p.head? = some s && p.getLast? = some t &&
    p.Chain' (fun a b => hasEdge g a b) && p.Nodup &&
    p.all (fun v => v < g.nodes.length)

/-- Every simple directed path of `g` from `s` to `t`, as vertex lists. -/
def simplePaths (g : SimGraph) (s t : Nat) : List (List Nat) :=
  (((List.range g.nodes.length).sublists).flatMap List.permutations).filter
    (isPath g s t)

/-- Sum of minimum edge weights along a vertex path. -/
def pathWeight (g : SimGraph) : List Nat → Nat
  | [] => 0
  | [_] => 0
  | a :: b :: rest => ((minEdgeWeight? g a b).getD 0) + pathWeight g (b :: rest)

/-- Strict lexicographic order on (weight, hops) pairs, the derived `Ord` of
`PathMeasure` in `lib/src/sheep.rs`. -/
def lexLt (x y : Nat × Nat) : Bool := x.1 < y.1 || (x.1 = y.1 && x.2 < y.2)

/-- Lexicographic minimum of a list of (weight, hops) pairs. -/
def lexMin? : List (Nat × Nat) → Option (Nat × Nat)
  | [] => none
  | x :: xs =>
    match lexMin? xs with
    | none => some x
    | some m => some (if lexLt m x then m else x)

/-- Denotation of `petgraph::algo::dijkstra` over `PathMeasure` as used by
`process_feed` in `lib/src/sheep.rs`: the entry the result map holds for the
target, i.e. the lexicographically minimal (weight-sum, hop-count) over the
directed paths from source to target, or `none` when no path exists.  With
strictly measure-increasing edges the minimum over all paths is attained on a
simple path, so simple paths suffice. -/
def dijkstra (g : SimGraph) (s t : Nat) : Option (Nat × Nat) :=
  lexMin? ((simplePaths g s t).map fun p => (pathWeight g p, p.length - 1))

/-- Loop body of `process_feed` in `lib/src/sheep.rs`, threading the index `k`
into the rng coin stream: one uniform draw is consumed for each reachable
item, none for an unreachable one.  Returns the responses and the final draw
index. -/
def process_feed_go (rng : Rng) (g : SimGraph) (sheep : Nat) :
    List Nat → Nat → List (Nat × Response × Option Nat) × Nat
  | [], k => ([], k)
  | item :: rest, k =>
    match dijkstra g sheep item with
    | some (d, hops) =>
      let r := process_feed_go rng g sheep rest (k + 1)
      ((item, rate d (rng.coin k), some hops) :: r.1, r.2)
    | none =>
      let r := process_feed_go rng g sheep rest k
      ((item, .Negative, none) :: r.1, r.2)

/-- `process_feed` of `lib/src/sheep.rs`: rates every feed item, carrying the
optional hop count of the shortest path. -/
def process_feed (rng : Rng) (g : SimGraph) (sheep : Nat) (feed : List Nat) :
    List (Nat × Response × Option Nat) :=
  (process_feed_go rng g sheep feed 0).1

/-- Poisson rate parameter of `add_new_tag_groups` in `lib/src/graph.rs`:
`(tags.len() as f64) / ((max_groups + 5) as f64)`, an exact division. -/
def poissonRate (t maxGroups : Nat) : Rat := (t : Rat) / ((maxGroups : Rat) + 5)

/-- Poisson rate parameter of `add_new_tag_groups` in `src/graph.rs` (older
binary): `(tags.len() / (max_groups + 1)) as f64`, an integer division
truncated before the cast. -/
def poissonRate_bin (t maxGroups : Nat) : Rat := ((t / (maxGroups + 1) : Nat) : Rat)

/-- Poisson rate parameter of `add_to_tag_groups` in `lib/src/graph.rs`:
`(tags.len() as f64) / ((groups.len() + 50) as f64)`. -/
def poissonRateTo (t nGroups : Nat) : Rat := (t : Rat) / ((nGroups : Rat) + 50)

/-- Model of `statrs` `Poisson::new`: the constructor rejects a rate that is
NaN or non-positive.  The rates above are quotients of a non-negative and a
positive finite number, so NaN cannot arise and the test is `rate ≤ 0`. -/
def poisson_new (rate : Rat) : Except StatsError Unit :=
  if rate ≤ 0 then .error .badParams else .ok ()

/-- The group-forming loop shared by `add_new_tag_groups` and
`add_to_tag_groups` (`lib/src/graph.rs`; the loop is identical in
`src/graph.rs`).  `tags` is the shuffled tag vector, `s` is `n_stored`, and
the list argument is the stream of Poisson draws already truncated by
`take`.  Each draw `n` is clamped to the remaining tags; a clamp to zero
breaks the loop.  Returns the pushed groups (as slices, in order) and the
final `n_stored`. -/
def formGroups (tags : List Nat) (s : Nat) : List Nat → List (List Nat) × Nat
  | [] => ([], s)
  | n :: rest =>
    if tags.length ≤ s + n then
      let m := tags.length - s
      if m = 0 then ([], s)
      else
        let r := formGroups tags (s + m) rest
        (((tags.drop s).take m) :: r.1, r.2)
    else
      let r := formGroups tags (s + n) rest
      (((tags.drop s).take n) :: r.1, r.2)

/-- The ordered pair enumeration of `Itertools::tuple_combinations` on a list:
all pairs `(l[i], l[j])` with `i < j`, in iteration order. -/
def tupleCombs : List α → List (α × α)
  | [] => []
  | x :: xs => (xs.map fun y => (x, y)) ++ tupleCombs xs

/-- Family-1 edge pass of `add_new_tag_groups` in `lib/src/graph.rs`: for each
unordered pair inside a group, add both directions, each with an independent
weight drawn from `5..=10`.  Threads the index into the weight stream. -/
def intraPairEdges (rng : Rng) (k : Nat) : List (Nat × Nat) → List Edge × Nat
  | [] => ([], k)
  | (a, b) :: rest =>
    let e1 : Edge := (a, b, genRange 5 10 (rng.weight k))
    let e2 : Edge := (b, a, genRange 5 10 (rng.weight (k + 1)))
    let r := intraPairEdges rng (k + 2) rest
    (e1 :: e2 :: r.1, r.2)

/-- Edges added by the per-group loop of `add_new_tag_groups` in
`lib/src/graph.rs` (`for group in &*groups`), which runs over the whole group
list, pre-existing groups included. -/
def intraGroupEdges (rng : Rng) (ord : HashOrder) (k : Nat) :
    List (Finset Nat) → List Edge × Nat
  | [] => ([], k)
  | g :: gs =>
    let r1 := intraPairEdges rng k (tupleCombs (ord.enum g))
    let r2 := intraGroupEdges rng ord r1.2 gs
    (r1.1 ++ r2.1, r2.2)

/-- Family-2 edge pass over the cartesian product of two groups
(`lib/src/graph.rs`): each pair is kept with probability `1e-3` (one coin
draw), and a kept pair receives both directions with independent weights from
`1..=5`.  Threads the weight index `k` and the coin index `kc`. -/
def crossPairEdges (rng : Rng) (k kc : Nat) :
    List (Nat × Nat) → List Edge × Nat × Nat
  | [] => ([], k, kc)
  | (a, b) :: rest =>
    if rng.coin kc ≤ 1 / 1000 then
      let e1 : Edge := (a, b, genRange 1 5 (rng.weight k))
      let e2 : Edge := (b, a, genRange 1 5 (rng.weight (k + 1)))
      let r := crossPairEdges rng (k + 2) (kc + 1) rest
      (e1 :: e2 :: r.1, r.2)
    else
      crossPairEdges rng k (kc + 1) rest

/-- Cross-group edge pass of `add_new_tag_groups` in `lib/src/graph.rs`: over
every pair of groups of the whole list, the cartesian product of their
members. -/
def crossGroupEdges (rng : Rng) (ord : HashOrder) (k kc : Nat) :
    List (Finset Nat × Finset Nat) → List Edge × Nat × Nat
  | [] => ([], k, kc)
  | (ga, gb) :: rest =>
    let r1 := crossPairEdges rng k kc ((ord.enum ga).product (ord.enum gb))
    let r2 := crossGroupEdges rng ord r1.2.1 r1.2.2 rest
    (r1.1 ++ r2.1, r2.2)

/-- Result of a tag-group operation: the group list, the orphan set, and the
edge list of the graph after the call. -/
structure TagGroupsOut where
  groups : List (Finset Nat)
  orphans : Finset Nat
  edges : List Edge
deriving DecidableEq

/-- `add_new_tag_groups` of `lib/src/graph.rs`.  Shuffles the tags, draws up
to `max_groups` Poisson samples at rate `|tags| / (max_groups + 5)`, slices
the shuffled tags into groups, sends the remainder to the orphan set, then
adds family-1 edges inside every group of the resulting list and family-2
edges across every pair of groups of that list. -/
def add_new_tag_groups (rng : Rng) (ord : HashOrder) (edges : List Edge)
    (groups : List (Finset Nat)) (orphans : Finset Nat) (maxGroups : Nat)
    (tags : List Nat) : Except StatsError TagGroupsOut :=
  let tags' := rng.shuffle tags
  match poisson_new (poissonRate tags'.length maxGroups) with
  | .error e => .error e
  | .ok _ =>
    let samples := (List.range maxGroups).map rng.poisson
    let fg := formGroups tags' 0 samples
    let groups' := groups ++ fg.1.map List.toFinset
    let orphans' := orphans ∪ (tags'.drop fg.2).toFinset
    let intra := intraGroupEdges rng ord 0 groups'
    let cross := crossGroupEdges rng ord intra.2 0 (tupleCombs groups')
    .ok ⟨groups', orphans', edges ++ intra.1 ++ cross.1⟩

/-- State of `(groups, orphans, edges)` after a call to
`add_new_tag_groups`: the Rust arguments are mutable references, and on an
error the constructor fails before any of them is touched. -/
def add_new_tag_groups_state (rng : Rng) (ord : HashOrder) (edges : List Edge)
    (groups : List (Finset Nat)) (orphans : Finset Nat) (maxGroups : Nat)
    (tags : List Nat) : List (Finset Nat) × Finset Nat × List Edge :=
  match add_new_tag_groups rng ord edges groups orphans maxGroups tags with
  | .error _ => (groups, orphans, edges)
  | .ok out => (out.groups, out.orphans, out.edges)

/-- Extension step at the end of `add_to_tag_groups`
(`groups.iter_mut().zip(new_members)`): the i-th group absorbs the i-th new
member set; `zip` stops at the shorter list, so trailing groups are kept
unchanged. -/
def extendGroups : List (Finset Nat) → List (Finset Nat) → List (Finset Nat)
  | gs, [] => gs
  | [], _ => []
  | g :: gs, m :: ms => (g ∪ m) :: extendGroups gs ms

/-- The `for (i, members) in new_members.iter().enumerate()` loop of
`add_to_tag_groups` in `lib/src/graph.rs`: family-1 edges inside each new
member set and between it and `groups[i]`.  The index access `groups[i]` is
modelled with `Option` (`none` is an out-of-bounds panic). -/
def memberGroupEdges? (rng : Rng) (ord : HashOrder) (groups : List (Finset Nat)) :
    List (Finset Nat) → Nat → Nat → Option (List Edge × Nat)
  | [], _, k => some ([], k)
  | m :: ms, i, k =>
    match groups[i]? with
    | none => none
    | some gi =>
      let r1 := intraPairEdges rng k (tupleCombs (ord.enum m))
      let r2 := intraPairEdges rng r1.2 ((ord.enum m).product (ord.enum gi))
      match memberGroupEdges? rng ord groups ms (i + 1) r2.2 with
      | none => none
      | some r => some (r1.1 ++ r2.1 ++ r.1, r.2)

/-- A family-2 loop over index pairs `(i, j)` that accesses `ms[i]` and
`gs[j]`, modelling the `for (i, j) in (0..bound).tuple_combinations()` loop of
`add_to_tag_groups`; an out-of-bounds access is `none`. -/
def crossIndexEdges? (rng : Rng) (ord : HashOrder) (ms gs : List (Finset Nat)) :
    List (Nat × Nat) → Nat → Nat → Option (List Edge × Nat × Nat)
  | [], k, kc => some ([], k, kc)
  | (i, j) :: rest, k, kc =>
    match ms[i]?, gs[j]? with
    | some mi, some gj =>
      let r1 := crossPairEdges rng k kc ((ord.enum mi).product (ord.enum gj))
      match crossIndexEdges? rng ord ms gs rest r1.2.1 r1.2.2 with
      | none => none
      | some r => some (r1.1 ++ r.1, r.2)
    | _, _ => none

/-- `add_to_tag_groups` of `lib/src/graph.rs`.  Returns early when the
shuffled tag list is empty; otherwise draws up to `groups.len()` Poisson
samples at rate `|tags| / (groups.len() + 50)`, builds the new-member sets,
sends leftovers to the orphan set, adds the family-1 and family-2 edges (the
family-2 loop runs over `0..new_members.len()`), and finally extends each
group with its new members.  `none` models an index panic. -/
def add_to_tag_groups (rng : Rng) (ord : HashOrder) (edges : List Edge)
    (groups : List (Finset Nat)) (orphans : Finset Nat) (tags : List Nat) :
    Option (Except StatsError TagGroupsOut) :=
  let tags' := rng.shuffle tags
  if tags'.isEmpty then some (.ok ⟨groups, orphans, edges⟩)
  else
    match poisson_new (poissonRateTo tags'.length groups.length) with
    | .error e => some (.error e)
    | .ok _ =>
      let samples := (List.range groups.length).map rng.poisson
      let fg := formGroups tags' 0 samples
      let ms := fg.1.map List.toFinset
      let orphans' := orphans ∪ (tags'.drop fg.2).toFinset
      match memberGroupEdges? rng ord groups ms 0 0 with
      | none => none
      | some r1 =>
        match crossIndexEdges? rng ord ms groups
            (tupleCombs (List.range ms.length)) r1.2 0 with
        | none => none
        | some r2 =>
          some (.ok ⟨extendGroups groups ms, orphans', edges ++ r1.1 ++ r2.1⟩)

/-- Poisson rate parameter of `add_to_tag_groups` in `src/graph.rs` (older
binary): `(tags.len() / (groups.len() + 1)) as f64`, an integer division. -/
def poissonRateTo_bin (t nGroups : Nat) : Rat := ((t / (nGroups + 1) : Nat) : Rat)

/-- Family-1 pair pass of the older binary (`src/graph.rs` stores an
`Undirected` `Csr`): a single `add_edge` per pair, weight from `5..=10`. -/
def intraPairEdges_bin (rng : Rng) (k : Nat) : List (Nat × Nat) → List Edge × Nat
  | [] => ([], k)
  | (a, b) :: rest =>
    let e : Edge := (a, b, genRange 5 10 (rng.weight k))
    let r := intraPairEdges_bin rng (k + 1) rest
    (e :: r.1, r.2)

/-- Family-2 pair pass of the older binary: one coin draw per pair, a kept
pair receives a single edge with weight from `1..=5`. -/
def crossPairEdges_bin (rng : Rng) (k kc : Nat) :
    List (Nat × Nat) → List Edge × Nat × Nat
  | [] => ([], k, kc)
  | (a, b) :: rest =>
    if rng.coin kc ≤ 1 / 100 then
      let e : Edge := (a, b, genRange 1 5 (rng.weight k))
      let r := crossPairEdges_bin rng (k + 1) (kc + 1) rest
      (e :: r.1, r.2)
    else
      crossPairEdges_bin rng k (kc + 1) rest

/-- The enumerate loop of `add_to_tag_groups` in `src/graph.rs` (older
binary): single-direction family-1 edges. -/
def memberGroupEdges_bin? (rng : Rng) (ord : HashOrder) (groups : List (Finset Nat)) :
    List (Finset Nat) → Nat → Nat → Option (List Edge × Nat)
  | [], _, k => some ([], k)
  | m :: ms, i, k =>
    match groups[i]? with
    | none => none
    | some gi =>
      let r1 := intraPairEdges_bin rng k (tupleCombs (ord.enum m))
      let r2 := intraPairEdges_bin rng r1.2 ((ord.enum m).product (ord.enum gi))
      match memberGroupEdges_bin? rng ord groups ms (i + 1) r2.2 with
      | none => none
      | some r => some (r1.1 ++ r2.1 ++ r.1, r.2)

/-- The family-2 index loop of the older binary, with a single edge per kept
pair. -/
def crossIndexEdges_bin? (rng : Rng) (ord : HashOrder) (ms gs : List (Finset Nat)) :
    List (Nat × Nat) → Nat → Nat → Option (List Edge × Nat × Nat)
  | [], k, kc => some ([], k, kc)
  | (i, j) :: rest, k, kc =>
    match ms[i]?, gs[j]? with
    | some mi, some gj =>
      let r1 := crossPairEdges_bin rng k kc ((ord.enum mi).product (ord.enum gj))
      match crossIndexEdges_bin? rng ord ms gs rest r1.2.1 r1.2.2 with
      | none => none
      | some r => some (r1.1 ++ r.1, r.2)
    | _, _ => none

/-- `add_to_tag_groups` of `src/graph.rs` (older binary).  There is no guard
for an empty tag list, the Poisson rate is the integer quotient
`tags.len() / (groups.len() + 1)`, and the family-2 loop iterates `(i, j)`
over `0..groups.len()` while indexing `new_members[i]`, so the candidate-set
list may be indexed past its end. -/
def add_to_tag_groups_bin (rng : Rng) (ord : HashOrder) (edges : List Edge)
    (groups : List (Finset Nat)) (orphans : Finset Nat) (tags : List Nat) :
    Option (Except StatsError TagGroupsOut) :=
  let tags' := rng.shuffle tags
  match poisson_new (poissonRateTo_bin tags'.length groups.length) with
  | .error e => some (.error e)
  | .ok _ =>
    let samples := (List.range groups.length).map rng.poisson
    let fg := formGroups tags' 0 samples
    let ms := fg.1.map List.toFinset
    let orphans' := orphans ∪ (tags'.drop fg.2).toFinset
    match memberGroupEdges_bin? rng ord groups ms 0 0 with
    | none => none
    | some r1 =>
      match crossIndexEdges_bin? rng ord ms groups
          (tupleCombs (List.range groups.length)) r1.2 0 with
      | none => none
      | some r2 =>
        some (.ok ⟨extendGroups groups ms, orphans', edges ++ r1.1 ++ r2.1⟩)

/-- `create_nodes` of `lib/src/graph.rs` (identical in `src/graph.rs`):
`(0..n).map(|_| GraphId::new(self.0.add_node(K::NODE_TYPE)))`.  Each
`add_node` appends a node and returns its index, which in petgraph is the
node count before the insertion.  Returns the fresh ids in order, with the
updated graph. -/
def create_nodes (g : SimGraph) (kind : NodeType) : Nat → List Nat × SimGraph
  | 0 => ([], g)
  | n + 1 =>
    let id := g.nodes.length
    let r := create_nodes ⟨g.nodes ++ [kind], g.edges⟩ kind n
    (id :: r.1, r.2)

/-- `associated_tags` of `lib/src/graph.rs`: the direct neighbors of a node in
either direction (`neighbors_undirected`). -/
def associated_tags (g : SimGraph) (v : Nat) : List Nat :=
  g.edges.filterMap fun e =>
    if e.1 = v then some e.2.1 else if e.2.1 = v then some e.1 else none

/-- The events a shepherd subprocess receives, from `SimulationEvent` in the
shepherd channel.  `FeedRequest` and `Responses` are modelled from the spec
(the file `shepherd.rs` of the library is not part of the sources at hand): building a
feed writes a `FeedRequest{sheep}` event and reads the feed back, and
`incorporate_responses` writes a `Responses{sheep, responses}` event. -/
inductive SimulationEvent where
  | BeginEpoch (id : Nat) (tags items : List Nat)
  | SheepIntroduction (sheep : Nat) (assocTags : List Nat)
  | FeedRequest (sheep : Nat)
  | Responses (sheep : Nat) (rs : List (Nat × Response × Option Nat))
deriving DecidableEq, Repr

/-- First per-shepherd loop of `simulate_epoch` in `lib/src/simulation.rs`:
one `SheepIntroduction` per sheep of the current population, in order. -/
def introPhase (g : SimGraph) : List Nat → List SimulationEvent
  | [] => []
  | s :: ss => .SheepIntroduction s (associated_tags g s) :: introPhase g ss

/-- Second per-shepherd loop of `simulate_epoch` in `lib/src/simulation.rs`:
for each sheep in order, request a feed (the reply of the shepherd is the oracle
`feeds`), rate it with `process_feed`, and send the responses back.  Threads
the rng draw index. -/
def feedPhase (rng : Rng) (g : SimGraph) (feeds : Nat → List Nat) :
    List Nat → Nat → List SimulationEvent × Nat
  | [], k => ([], k)
  | s :: ss, k =>
    let pr := process_feed_go rng g s (feeds s) k
    let r := feedPhase rng g feeds ss pr.2
    (.FeedRequest s :: .Responses s pr.1 :: r.1, r.2)

/-- The event sequence one shepherd sees during `simulate_epoch`
(`lib/src/simulation.rs`): the `BeginEpoch` write, then the introduction
loop, then the feed loop, exactly in program order. -/
def epochTrace (rng : Rng) (g : SimGraph) (feeds : Nat → List Nat) (eid : Nat)
    (newTags newItems sheepPop : List Nat) : List SimulationEvent :=
  .BeginEpoch eid newTags newItems ::
    (introPhase g sheepPop ++ (feedPhase rng g feeds sheepPop 0).1)

/-- The per-shepherd traces of one `simulate_epoch` call: the driver finishes
the whole epoch of one shepherd before starting the next, each with its own feed
oracle. -/
def simulate_epoch_traces (rng : Rng) (g : SimGraph)
    (shepherds : List (Nat → List Nat)) (eid : Nat)
    (newTags newItems sheepPop : List Nat) : List (List SimulationEvent) :=
  shepherds.map fun f => epochTrace rng g f eid newTags newItems sheepPop

/-- The tag bookkeeping of `Simulation` in `lib/src/simulation.rs`: the tag
population, the tag-group list, and the orphan set. -/
structure SimTagState where
  pop : Finset Nat
  groups : List (Finset Nat)
  orphans : Finset Nat

/-- One public mutation of the tag bookkeeping, as issued by `Simulation::new`
and `Simulation::simulate_epoch` in `lib/src/simulation.rs`: introducing
freshly created tags through `add_new_tag_groups` or `add_to_tag_groups`, or
draining the orphan set (snapshot, clear, regroup) once it reaches the
threshold.  Freshness of created tags comes from `create_nodes`, which hands
out ids that are new to the graph. -/
inductive SimStep : SimTagState → SimTagState → Prop where
  | newGroups (st : SimTagState) (rng : Rng) (ord : HashOrder)
      (edges : List Edge) (maxGroups : Nat) (tags : List Nat)
      (out : TagGroupsOut) (hnd : tags.Nodup)
      (hfresh : ∀ t ∈ tags, t ∉ st.pop)
      (hok : add_new_tag_groups rng ord edges st.groups st.orphans maxGroups
        tags = .ok out) :
      SimStep st ⟨st.pop ∪ tags.toFinset, out.groups, out.orphans⟩
  | toGroups (st : SimTagState) (rng : Rng) (ord : HashOrder)
      (edges : List Edge) (tags : List Nat) (out : TagGroupsOut)
      (hnd : tags.Nodup) (hfresh : ∀ t ∈ tags, t ∉ st.pop)
      (hok : add_to_tag_groups rng ord edges st.groups st.orphans tags
        = some (.ok out)) :
      SimStep st ⟨st.pop ∪ tags.toFinset, out.groups, out.orphans⟩
  | drain (st : SimTagState) (rng : Rng) (ord : HashOrder) (edges : List Edge)
      (maxGroups threshold : Nat) (out : TagGroupsOut)
      (hth : threshold ≤ st.orphans.card)
      (hok : add_new_tag_groups rng ord edges st.groups ∅ maxGroups
        (ord.enum st.orphans) = .ok out) :
      SimStep st ⟨st.pop, out.groups, out.orphans⟩

/-- States of the tag bookkeeping reachable from the empty simulation by
public calls. -/
def SimReachable (st : SimTagState) : Prop :=
  Relation.ReflTransGen SimStep ⟨∅, [], ∅⟩ st

/-- The tag-partition property: every tag of the population is in exactly one
group and not orphaned, or in no group and orphaned. -/
def TagPartition (st : SimTagState) : Prop :=
  ∀ t ∈ st.pop,
    ((∃! i : Fin st.groups.length, t ∈ st.groups.get i) ∧ t ∉ st.orphans) ∨
    ((∀ g ∈ st.groups, t ∉ g) ∧ t ∈ st.orphans)

/-- A concrete deterministic rng for closed evaluations: identity shuffle,
constant Poisson draws of 3, the identity raw weight stream, and uniform
draws pinned to 1. -/
def rng0 : Rng where
  shuffle := id
  shuffle_perm := fun l => List.Perm.refl l
  poisson := fun _ => 3
  weight := fun i => i
  coin := fun _ => 1

/-- An ascending enumeration of a finite set of naturals: every element is at
most the element sum, so filtering the range below `sum + 1` lists exactly
the members, in increasing order. -/
def enumAsc (s : Finset Nat) : List Nat :=
  (List.range (s.sum id + 1)).filter (· ∈ s)

/-- A concrete hash order enumerating every set in ascending order. -/
def hashOrdA : HashOrder where
  enum := enumAsc
  enum_nodup := fun _ => (List.nodup_range _).filter _
  enum_mem := fun s x => by
    unfold enumAsc
    simp only [List.mem_filter, List.mem_range, decide_eq_true_eq]
    exact ⟨fun h => h.2, fun h => ⟨Nat.lt_succ_of_le
      (Finset.single_le_sum (fun i _ => Nat.zero_le (id i)) h), h⟩⟩

/-- A second concrete hash order enumerating every set in descending order —
another legal iteration order for the very same sets. -/
def hashOrdB : HashOrder where
  enum := fun s => (enumAsc s).reverse
  enum_nodup := fun _ => List.nodup_reverse.mpr ((List.nodup_range _).filter _)
  enum_mem := fun s x => (List.mem_reverse).trans (hashOrdA.enum_mem s x)

/-- Whether an event belongs to the feed-exchange phase. -/
def isFeedExchange : SimulationEvent → Bool
  | .FeedRequest _ => true
  | .Responses _ _ => true
  | _ => false

/-- Whether a list of events is a sequence of (FeedRequest, Responses) pairs,
each reply addressed to the sheep of the request it follows. -/
def feedPairs : List SimulationEvent → Bool
  | [] => true
  | .FeedRequest s :: .Responses s' _ :: rest => s = s' && feedPairs rest
  | _ => false

/-- The sheep of the FeedRequest events of a trace, in order. -/
def feedRequestSheep (tr : List SimulationEvent) : List Nat :=
  tr.filterMap fun e =>
    match e with
    | .FeedRequest s => some s
    | _ => none

/-- A concrete deterministic rng whose Poisson stream is pinned to 4:
enough to make the first group draw swallow a four-tag list whole. -/
def rngP : Rng where
  shuffle := id
  shuffle_perm := fun l => List.Perm.refl l
  poisson := fun _ => 4
  weight := fun i => i
  coin := fun _ => 1

/-- Group-list component of a tag-group call result (empty on error). -/
def resGroups : Except StatsError TagGroupsOut → List (Finset Nat)
  | .error _ => []
  | .ok out => out.groups

/-- Orphan-set component of a tag-group call result (empty on error). -/
def resOrphans : Except StatsError TagGroupsOut → Finset Nat
  | .error _ => ∅
  | .ok out => out.orphans

/-- Edge multiset of a tag-group call result (empty on error). -/
def resEdgesM : Except StatsError TagGroupsOut → Multiset Edge
  | .error _ => 0
  | .ok out => (out.edges : Multiset Edge)

/-- Whether a tag-group call succeeded. -/
def isOkB : Except StatsError TagGroupsOut → Bool
  | .error _ => false
  | .ok _ => true

/-- Auxiliary invariant of the tag bookkeeping, strong enough for the
reachability induction: the orphan set and the groups cover the population,
stay inside it, and are mutually disjoint. -/
structure TagInvAux (st : SimTagState) : Prop where
  cover : ∀ t ∈ st.pop, t ∈ st.orphans ∨ ∃ g ∈ st.groups, t ∈ g
  groups_sub : ∀ g ∈ st.groups, g ⊆ st.pop
  orphans_sub : st.orphans ⊆ st.pop
  disjG : st.groups.Pairwise Disjoint
  disjO : ∀ g ∈ st.groups, Disjoint g st.orphans

theorem p_positive_eq_half_pow (d : Nat) : p_positive d = (1 / 2 : Rat) ^ d := by
  unfold p_positive
  rw [zpow_neg, zpow_natCast, one_div, inv_pow]

theorem p_neutral_eq_ratio_pow (d : Nat) : p_neutral d = (9 / 10 : Rat) ^ d := by
  unfold p_neutral
  rw [div_pow]

/-- Claim C1.  The response thresholds of the current library implementation are
`2 ^ (-d)` and `(9/10)^d`, as the claim states, but `p_positive` and `p_neutral` of the older binary in `src/sheep.rs` compute `(-d)^2 = d^2` and
`d^9 / d^10` instead: at distance 2 the thresholds of the binary are 4 and 1/2
rather than 1/4 and 81/100, so a draw of 9/10 is rated Positive by the binary
where the claimed rule (and the library) yields Negative. -/
theorem process_feed_thresholds_bug :
    p_positive 2 = 1 / 4 ∧ p_neutral 2 = 81 / 100 ∧
    p_positive_bin 2 = 4 ∧ p_neutral_bin 2 = 1 / 2 ∧
    rate 2 (9 / 10) = Response.Negative ∧
    rate_bin 2 (9 / 10) = Response.Positive := by
  norm_num [p_positive, p_neutral, p_positive_bin, p_neutral_bin, rate, rate_bin]

/-- Claim C2.  For the response model's thresholds (the library implementation),
`p_positive d ≤ p_neutral d` for every distance and `p_positive` is
non-increasing, so the `else if` branch is well-defined; the thresholds of the older binary violate both properties at distance 2. -/
theorem p_positive_le_p_neutral_and_antitone :
    (∀ d : Nat, p_positive d ≤ p_neutral d) ∧
    (∀ d : Nat, p_positive (d + 1) ≤ p_positive d) ∧
    ¬ (p_positive_bin 2 ≤ p_neutral_bin 2) ∧
    ¬ (p_positive_bin (1 + 1) ≤ p_positive_bin 1) := by
  refine ⟨fun d => ?_, fun d => ?_, ?_, ?_⟩
  · rw [p_positive_eq_half_pow, p_neutral_eq_ratio_pow]
    exact pow_le_pow_left₀ (by norm_num) (by norm_num) d
  · rw [p_positive_eq_half_pow, p_positive_eq_half_pow]
    exact pow_le_pow_of_le_one (by norm_num) (by norm_num) (Nat.le_succ d)
  · norm_num [p_positive_bin, p_neutral_bin]
  · norm_num [p_positive_bin]

/-- Claim C3.  For every feed item, `process_feed` answers with that item; when no
path from the sheep to the item exists the response is Negative with no hop
count, regardless of the rng, and the hop count is present exactly when a
path exists. -/
theorem process_feed_unreachable_negative (rng : Rng) (g : SimGraph)
    (sheep : Nat) (feed : List Nat) :
    List.Forall₂ (fun item r =>
      (dijkstra g sheep item = none → r = (item, Response.Negative, none)) ∧
      (r.2.2.isSome ↔ (dijkstra g sheep item).isSome))
      feed (process_feed rng g sheep feed) := by
  unfold process_feed
  generalize (0 : Nat) = k
  induction feed generalizing k with
  | nil => exact List.Forall₂.nil
  | cons item rest ih =>
    unfold process_feed_go
    cases hd : dijkstra g sheep item with
    | some v =>
      exact List.Forall₂.cons
        ⟨fun h => by simp [h] at hd, by simp [hd]⟩ (ih (k + 1))
    | none =>
      exact List.Forall₂.cons ⟨fun _ => rfl, by simp [hd]⟩ (ih k)

/-- Claim C6.  `create_nodes` leaves the edges alone, grows the node count by
exactly `n`, and returns the `n` fresh ids as the dense contiguous range
starting at the previous node count. -/
theorem create_nodes_count_and_ids (g : SimGraph) (kind : NodeType) (n : Nat) :
    (create_nodes g kind n).2.nodes.length = g.nodes.length + n ∧
    (create_nodes g kind n).1 = List.range' g.nodes.length n ∧
    (create_nodes g kind n).2.edges = g.edges := by
  induction n generalizing g with
  | zero => simp [create_nodes]
  | succ n ih =>
    have h := ih ⟨g.nodes ++ [kind], g.edges⟩
    refine ⟨?_, ?_, h.2.2⟩
    · simp only [create_nodes, h.1, List.length_append, List.length_singleton]
      omega
    · simp only [create_nodes, h.2.1, List.range'_succ, List.length_append,
        List.length_singleton]

theorem formGroups_length_le (ns : List Nat) (tags : List Nat) (s : Nat) :
    (formGroups tags s ns).1.length ≤ ns.length := by
  induction ns generalizing s with
  | nil => simp [formGroups]
  | cons n rest ih =>
    unfold formGroups
    dsimp only
    split
    · split
      · simp
      · simpa using Nat.succ_le_succ (ih (s + (tags.length - s)))
    · simpa using Nat.succ_le_succ (ih (s + n))

/-- Counterexample for C4.  The `add_new_tag_groups` of the binary passes the integer
quotient `tags.len() / (max_groups + 1)` to `Poisson::new`: with 20 tags and
4 groups that is 4, not the exact quotient 20/9 the claim states. -/
theorem poissonRate_bin_not_exact_division :
    poissonRate_bin 20 4 ≠ (20 : Rat) / ((4 : Rat) + 5) := by
  norm_num [poissonRate_bin]

/-- Claim C4, amended.  In the library implementation the Poisson rate is the exact
quotient `|T| / (G + 5)` and at most `G` samples are drawn (so at most `G`
groups are appended); the binary implementation instead passes the truncated
integer quotient `|T| / (G + 1)`. -/
theorem add_new_tag_groups_rate_and_sample_bound (rng : Rng) (ord : HashOrder)
    (edges : List Edge) (groups : List (Finset Nat)) (orphans : Finset Nat)
    (maxGroups : Nat) (tags : List Nat) :
    (add_new_tag_groups_state rng ord edges groups orphans maxGroups
      tags).1.length ≤ groups.length + maxGroups ∧
    poissonRate tags.length maxGroups
      = (tags.length : Rat) / ((maxGroups : Rat) + 5) ∧
    poissonRate_bin 20 4 = 4 := by
  refine ⟨?_, rfl, by norm_num [poissonRate_bin]⟩
  unfold add_new_tag_groups_state add_new_tag_groups
  cases hp : poisson_new (poissonRate (rng.shuffle tags).length maxGroups) with
  | error e => simp only [hp]; omega
  | ok u =>
    simp only [hp, List.length_append, List.length_map]
    have := formGroups_length_le ((List.range maxGroups).map rng.poisson)
      (rng.shuffle tags) 0
    simp only [List.length_map, List.length_range] at this
    omega

/-- Counterexample for C5.  On an empty tag list `add_new_tag_groups` does not
return successfully: the Poisson rate is `0 / (4 + 5) = 0`, which is finite
yet rejected by `Poisson::new`, so the call fails with the NumericDomain
error. -/
theorem add_new_tag_groups_empty_tags_errors :
    add_new_tag_groups rng0 hashOrdA [] [] ∅ 4 [] = .error .badParams := by
  have h1 : rng0.shuffle [] = [] := rfl
  have h2 : poisson_new (poissonRate 0 4) = .error .badParams := by
    norm_num [poisson_new, poissonRate]
  unfold add_new_tag_groups
  rw [h1]
  simp only [List.length_nil, h2]

/-- Claim C5, amended.  The call fails with the NumericDomain error exactly when the
tag list is empty (the rate `|T| / (G + 5)` is then 0, which `Poisson::new`
rejects as non-positive); when `max_groups = 0` and the incoming group list
is empty, the call leaves the groups and edges alone and appends every input
tag to the orphan set. -/
theorem add_new_tag_groups_edge_cases (rng : Rng) (ord : HashOrder)
    (edges : List Edge) (groups : List (Finset Nat)) (orphans : Finset Nat)
    (maxGroups : Nat) (tags : List Nat) (os : Finset Nat) :
    ((add_new_tag_groups rng ord edges groups orphans maxGroups tags
        = .error .badParams) ↔ tags = []) ∧
    add_new_tag_groups_state rng ord edges [] os 0 tags
      = ([], os ∪ tags.toFinset, edges) := by
  constructor
  · have hlen : (rng.shuffle tags).length = tags.length :=
      (rng.shuffle_perm tags).length_eq
    unfold add_new_tag_groups
    by_cases h : tags = []
    · subst h
      simp only [List.length_nil] at hlen
      simp [poisson_new, poissonRate, hlen]
    · have hpos : 0 < tags.length := List.length_pos.mpr h
      have hrate : ¬ poissonRate (rng.shuffle tags).length maxGroups ≤ 0 := by
        rw [hlen]
        push_neg
        unfold poissonRate
        positivity
      simp [poisson_new, hrate, h]
  · have hperm := rng.shuffle_perm tags
    unfold add_new_tag_groups_state add_new_tag_groups
    by_cases h : tags = []
    · subst h
      have hnil : rng.shuffle [] = [] := List.Perm.eq_nil (rng.shuffle_perm [])
      simp [hnil, poisson_new, poissonRate]
    · have hpos : 0 < (rng.shuffle tags).length := by
        rw [hperm.length_eq]
        exact List.length_pos.mpr h
      have hrate : ¬ poissonRate (rng.shuffle tags).length 0 ≤ 0 := by
        push_neg
        unfold poissonRate
        positivity
      simp only [poisson_new, hrate, if_neg, List.range_zero, List.map_nil]
      simp [formGroups, intraGroupEdges, crossGroupEdges, tupleCombs,
        List.toFinset_eq_of_perm _ _ hperm]

theorem introPhase_eq_map (g : SimGraph) (pop : List Nat) :
    introPhase g pop
      = pop.map fun s => SimulationEvent.SheepIntroduction s (associated_tags g s) := by
  induction pop with
  | nil => rfl
  | cons s ss ih => simp [introPhase, ih]

theorem feedPhase_all_exchanges (rng : Rng) (g : SimGraph)
    (feeds : Nat → List Nat) (pop : List Nat) (k : Nat) :
    ((feedPhase rng g feeds pop k).1.all isFeedExchange
      ∧ feedPairs (feedPhase rng g feeds pop k).1 = true)
      ∧ feedRequestSheep (feedPhase rng g feeds pop k).1 = pop := by
  induction pop generalizing k with
  | nil => simp [feedPhase, feedPairs, feedRequestSheep]
  | cons s ss ih =>
    have h := ih (process_feed_go rng g s (feeds s) k).2
    refine ⟨⟨?_, ?_⟩, ?_⟩
    · simp [feedPhase, isFeedExchange, h.1.1]
    · simp [feedPhase, feedPairs, h.1.2]
    · simp [feedPhase, feedRequestSheep, isFeedExchange]
      exact h.2

/-- Claim C9.  Within `simulate_epoch`, the event stream of each shepherd starts with
the `BeginEpoch` event, followed immediately by one `SheepIntroduction` for
every sheep of the current population in order, and everything after these
first `1 + |sheep|` events is feed-exchange traffic only: a sequence of
(FeedRequest, Responses) pairs covering the sheep in order.  The driver runs
the whole epoch of one shepherd before the next, so this holds for every trace of
`simulate_epoch_traces`. -/
theorem simulate_epoch_shepherd_phase_order (rng : Rng) (g : SimGraph)
    (shepherds : List (Nat → List Nat)) (feeds : Nat → List Nat) (eid : Nat)
    (newTags newItems sheepPop : List Nat) :
    simulate_epoch_traces rng g shepherds eid newTags newItems sheepPop
      = shepherds.map (fun f => epochTrace rng g f eid newTags newItems sheepPop) ∧
    (epochTrace rng g feeds eid newTags newItems sheepPop).take
        (1 + sheepPop.length)
      = SimulationEvent.BeginEpoch eid newTags newItems ::
          (sheepPop.map fun s =>
            SimulationEvent.SheepIntroduction s (associated_tags g s)) ∧
    ((epochTrace rng g feeds eid newTags newItems sheepPop).drop
        (1 + sheepPop.length)).all isFeedExchange ∧
    feedPairs ((epochTrace rng g feeds eid newTags newItems sheepPop).drop
        (1 + sheepPop.length)) = true ∧
    feedRequestSheep ((epochTrace rng g feeds eid newTags newItems
        sheepPop).drop (1 + sheepPop.length)) = sheepPop := by
  have hlen : (introPhase g sheepPop).length = sheepPop.length := by
    rw [introPhase_eq_map, List.length_map]
  have hf := feedPhase_all_exchanges rng g feeds sheepPop 0
  have htake : (epochTrace rng g feeds eid newTags newItems sheepPop).take
      (1 + sheepPop.length)
      = SimulationEvent.BeginEpoch eid newTags newItems :: introPhase g sheepPop := by
    unfold epochTrace
    rw [Nat.add_comm 1 sheepPop.length, List.take_succ_cons, ← hlen,
      List.take_left]
  have hdrop : (epochTrace rng g feeds eid newTags newItems sheepPop).drop
      (1 + sheepPop.length) = (feedPhase rng g feeds sheepPop 0).1 := by
    unfold epochTrace
    rw [Nat.add_comm 1 sheepPop.length, List.drop_succ_cons, ← hlen,
      List.drop_left]
  refine ⟨rfl, ?_, ?_, ?_, ?_⟩
  · rw [htake, introPhase_eq_map]
  · rw [hdrop]; exact hf.1.1
  · rw [hdrop]; exact hf.1.2
  · rw [hdrop]; exact hf.2

theorem tupleCombs_mem {α : Type} (l : List α) (a b : α)
    (h : (a, b) ∈ tupleCombs l) : a ∈ l ∧ b ∈ l := by
  induction l with
  | nil => simp [tupleCombs] at h
  | cons x xs ih =>
    simp only [tupleCombs, List.mem_append, List.mem_map, Prod.mk.injEq] at h
    rcases h with ⟨y, hy, hax, hby⟩ | h
    · subst hax; subst hby
      exact ⟨List.mem_cons_self .., List.mem_cons_of_mem _ hy⟩
    · exact ⟨List.mem_cons_of_mem _ (ih h).1, List.mem_cons_of_mem _ (ih h).2⟩

theorem memberGroupEdges_isSome (rng : Rng) (ord : HashOrder)
    (groups : List (Finset Nat)) (ms : List (Finset Nat)) (i k : Nat)
    (h : i + ms.length ≤ groups.length) :
    (memberGroupEdges? rng ord groups ms i k).isSome := by
  induction ms generalizing i k with
  | nil => simp [memberGroupEdges?]
  | cons m rest ih =>
    have hi : i < groups.length := by simp at h; omega
    unfold memberGroupEdges?
    cases hg : groups[i]? with
    | none =>
      rw [List.getElem?_eq_none_iff] at hg
      omega
    | some gi =>
      have hrec := ih (i + 1)
        (intraPairEdges rng
          (intraPairEdges rng k (tupleCombs (ord.enum m))).2
          ((ord.enum m).product (ord.enum gi))).2
        (by simp at h ⊢; omega)
      cases hr : memberGroupEdges? rng ord groups rest (i + 1)
          (intraPairEdges rng
            (intraPairEdges rng k (tupleCombs (ord.enum m))).2
            ((ord.enum m).product (ord.enum gi))).2 with
      | none => rw [hr] at hrec; simp at hrec
      | some r => simp [hr]

theorem crossIndexEdges_isSome (rng : Rng) (ord : HashOrder)
    (ms gs : List (Finset Nat)) (pairs : List (Nat × Nat)) (k kc : Nat)
    (h : ∀ p ∈ pairs, p.1 < ms.length ∧ p.2 < gs.length) :
    (crossIndexEdges? rng ord ms gs pairs k kc).isSome := by
  induction pairs generalizing k kc with
  | nil => simp [crossIndexEdges?]
  | cons p rest ih =>
    obtain ⟨i, j⟩ := p
    have hp := h (i, j) (List.mem_cons_self ..)
    unfold crossIndexEdges?
    cases hm : ms[i]? with
    | none =>
      rw [List.getElem?_eq_none_iff] at hm
      exact absurd hp.1 (by omega)
    | some mi =>
      cases hg : gs[j]? with
      | none =>
        rw [List.getElem?_eq_none_iff] at hg
        exact absurd hp.2 (by omega)
      | some gj =>
        have hrec := ih (crossPairEdges rng k kc
            ((ord.enum mi).product (ord.enum gj))).2.1
          (crossPairEdges rng k kc ((ord.enum mi).product (ord.enum gj))).2.2
          (fun q hq => h q (List.mem_cons_of_mem _ hq))
        cases hr : crossIndexEdges? rng ord ms gs rest
            (crossPairEdges rng k kc ((ord.enum mi).product (ord.enum gj))).2.1
            (crossPairEdges rng k kc
              ((ord.enum mi).product (ord.enum gj))).2.2 with
        | none => rw [hr] at hrec; simp at hrec
        | some r => simp [hr]

/-- Claim C10.  The `add_to_tag_groups` of the library never panics: its family-2 loop
runs over `0..new_members.len()`, so every index stays inside the candidate
sets actually built (and inside the group list, which is never shorter).
The loop of the older binary runs over `0..groups.len()` instead and does index
out of bounds: with three existing groups and four fresh tags whose first
Poisson draw is 4, only one candidate set is built and the pair `(1, 2)`
reads `new_members[1]`, which does not exist. -/
theorem add_to_tag_groups_no_panic (rng : Rng) (ord : HashOrder)
    (edges : List Edge) (groups : List (Finset Nat)) (orphans : Finset Nat)
    (tags : List Nat) :
    (add_to_tag_groups rng ord edges groups orphans tags).isSome ∧
    (add_to_tag_groups_bin rngP hashOrdA [] [{10}, ∅, ∅] ∅
      [0, 1, 2, 3]).isNone = true := by
  refine ⟨?_, by decide⟩
  unfold add_to_tag_groups
  by_cases he : (rng.shuffle tags).isEmpty
  · simp [he]
  · simp only [he, Bool.false_eq_true, if_false]
    cases hp : poisson_new
        (poissonRateTo (rng.shuffle tags).length groups.length) with
    | error e => simp
    | ok u =>
      simp only
      have hlen : ((formGroups (rng.shuffle tags) 0
          ((List.range groups.length).map rng.poisson)).1.map
            List.toFinset).length
          = (formGroups (rng.shuffle tags) 0
              ((List.range groups.length).map rng.poisson)).1.length :=
        List.length_map ..
      have hle : (formGroups (rng.shuffle tags) 0
          ((List.range groups.length).map rng.poisson)).1.length
          ≤ groups.length := by
        have := formGroups_length_le
          ((List.range groups.length).map rng.poisson) (rng.shuffle tags) 0
        simp only [List.length_map, List.length_range] at this
        omega
      split
      · rename_i heq
        have h1 := memberGroupEdges_isSome rng ord groups
          ((formGroups (rng.shuffle tags) 0
            ((List.range groups.length).map rng.poisson)).1.map
              List.toFinset) 0 0 (by omega)
        rw [heq] at h1
        simp at h1
      · rename_i r1 heq1
        split
        · rename_i heq2
          have h2 := crossIndexEdges_isSome rng ord
            ((formGroups (rng.shuffle tags) 0
              ((List.range groups.length).map rng.poisson)).1.map
                List.toFinset) groups
            (tupleCombs (List.range ((formGroups (rng.shuffle tags) 0
              ((List.range groups.length).map rng.poisson)).1.map
                List.toFinset).length)) r1.2 0 ?_
          · rw [heq2] at h2
            simp at h2
          · intro p hp
            have hb := tupleCombs_mem _ p.1 p.2 hp
            simp only [List.mem_range, hlen] at hb
            omega
        · simp

theorem add_new_tag_groups_eq_ok (rng : Rng) (ord : HashOrder)
    (edges : List Edge) (groups : List (Finset Nat)) (orphans : Finset Nat)
    (maxGroups : Nat) (tags : List Nat) (h : tags ≠ []) :
    add_new_tag_groups rng ord edges groups orphans maxGroups tags =
      .ok ⟨groups ++ ((formGroups (rng.shuffle tags) 0
              ((List.range maxGroups).map rng.poisson)).1.map List.toFinset),
           orphans ∪ ((rng.shuffle tags).drop
              (formGroups (rng.shuffle tags) 0
                ((List.range maxGroups).map rng.poisson)).2).toFinset,
           edges ++ (intraGroupEdges rng ord 0
              (groups ++ ((formGroups (rng.shuffle tags) 0
                ((List.range maxGroups).map rng.poisson)).1.map
                  List.toFinset))).1
             ++ (crossGroupEdges rng ord
              (intraGroupEdges rng ord 0
                (groups ++ ((formGroups (rng.shuffle tags) 0
                  ((List.range maxGroups).map rng.poisson)).1.map
                    List.toFinset))).2 0
              (tupleCombs (groups ++ ((formGroups (rng.shuffle tags) 0
                ((List.range maxGroups).map rng.poisson)).1.map
                  List.toFinset)))).1⟩ := by
  have hpos : 0 < (rng.shuffle tags).length := by
    rw [(rng.shuffle_perm tags).length_eq]
    exact List.length_pos.mpr h
  have hrate : ¬ poissonRate (rng.shuffle tags).length maxGroups ≤ 0 := by
    push_neg
    unfold poissonRate
    positivity
  have hp : poisson_new
      (poissonRate (rng.shuffle tags).length maxGroups) = .ok () := by
    simp [poisson_new, hrate]
  unfold add_new_tag_groups
  dsimp only
  rw [hp]

/-- Counterexample for C8.  With the same deterministic rng, the same empty
initial state and the same input tags `[0, 1, 2]` with `max_groups = 1`,
running `add_new_tag_groups` under an ascending and under a descending
`HashSet` iteration order produces different edge multisets: the run is only
reproducible when that iteration order — which Rust seeds per `HashSet`
instance, independently of the user rng — is also fixed. -/
theorem add_new_tag_groups_two_runs_differ :
    resEdgesM (add_new_tag_groups rng0 hashOrdA [] [] ∅ 1 [0, 1, 2])
      ≠ resEdgesM (add_new_tag_groups rng0 hashOrdB [] [] ∅ 1 [0, 1, 2]) := by
  rw [add_new_tag_groups_eq_ok rng0 hashOrdA [] [] ∅ 1 [0, 1, 2] (by decide),
    add_new_tag_groups_eq_ok rng0 hashOrdB [] [] ∅ 1 [0, 1, 2] (by decide)]
  decide

/-- Claim C8, amended.  `add_new_tag_groups` is a pure function of the rng and the
hash iteration order: two runs with the same seeded rng and the same orders
agree; moreover the group partition, the orphan set and the success of the
call never depend on the iteration order at all — only the weighted-edge
multiset does. -/
theorem add_new_tag_groups_deterministic (rng : Rng) (ord ord1 ord2 : HashOrder)
    (edges : List Edge) (groups : List (Finset Nat)) (orphans : Finset Nat)
    (maxGroups : Nat) (tags : List Nat) :
    add_new_tag_groups rng ord edges groups orphans maxGroups tags
      = add_new_tag_groups rng ord edges groups orphans maxGroups tags ∧
    resGroups (add_new_tag_groups rng ord1 edges groups orphans maxGroups tags)
      = resGroups (add_new_tag_groups rng ord2 edges groups orphans maxGroups
          tags) ∧
    resOrphans (add_new_tag_groups rng ord1 edges groups orphans maxGroups
        tags)
      = resOrphans (add_new_tag_groups rng ord2 edges groups orphans maxGroups
          tags) ∧
    isOkB (add_new_tag_groups rng ord1 edges groups orphans maxGroups tags)
      = isOkB (add_new_tag_groups rng ord2 edges groups orphans maxGroups
          tags) := by
  refine ⟨rfl, ?_⟩
  unfold add_new_tag_groups
  cases hp : poisson_new
      (poissonRate (rng.shuffle tags).length maxGroups) with
  | error e => simp [hp, resGroups, resOrphans, isOkB]
  | ok u => simp [hp, resGroups, resOrphans, isOkB]

theorem formGroups_flatten_append_drop (ns : List Nat) (tags : List Nat)
    (s : Nat) :
    (formGroups tags s ns).1.flatten ++ tags.drop (formGroups tags s ns).2
      = tags.drop s := by
  induction ns generalizing s with
  | nil => simp [formGroups]
  | cons n rest ih =>
    unfold formGroups
    dsimp only
    split
    · rename_i hclamp
      by_cases hm : tags.length - s = 0
      · simp [hm]
      · simp only [hm, if_false]
        have := ih (s + (tags.length - s))
        rw [List.flatten_cons, List.append_assoc, this, ← List.drop_drop,
          List.take_append_drop]
    · have := ih (s + n)
      rw [List.flatten_cons, List.append_assoc, this, ← List.drop_drop,
        List.take_append_drop]

theorem add_new_tag_groups_ok_parts (rng : Rng) (ord : HashOrder)
    (edges : List Edge) (groups : List (Finset Nat)) (orphans : Finset Nat)
    (maxGroups : Nat) (tags : List Nat) (out : TagGroupsOut)
    (hok : add_new_tag_groups rng ord edges groups orphans maxGroups tags
      = .ok out) :
    ∃ (gs1 : List (List Nat)) (rest : List Nat),
      out.groups = groups ++ gs1.map List.toFinset ∧
      out.orphans = orphans ∪ rest.toFinset ∧
      List.Perm (gs1.flatten ++ rest) tags := by
  unfold add_new_tag_groups at hok
  dsimp only at hok
  split at hok
  · exact absurd hok (by simp)
  · simp only [Except.ok.injEq] at hok
    refine ⟨(formGroups (rng.shuffle tags) 0
        ((List.range maxGroups).map rng.poisson)).1,
      (rng.shuffle tags).drop (formGroups (rng.shuffle tags) 0
        ((List.range maxGroups).map rng.poisson)).2, ?_, ?_, ?_⟩
    · rw [← hok]
    · rw [← hok]
    · rw [formGroups_flatten_append_drop]
      simpa using rng.shuffle_perm tags

theorem add_to_tag_groups_ok_parts (rng : Rng) (ord : HashOrder)
    (edges : List Edge) (groups : List (Finset Nat)) (orphans : Finset Nat)
    (tags : List Nat) (out : TagGroupsOut)
    (hok : add_to_tag_groups rng ord edges groups orphans tags
      = some (.ok out)) :
    ∃ (ms : List (List Nat)) (rest : List Nat),
      out.groups = extendGroups groups (ms.map List.toFinset) ∧
      out.orphans = orphans ∪ rest.toFinset ∧
      List.Perm (ms.flatten ++ rest) tags ∧ ms.length ≤ groups.length := by
  unfold add_to_tag_groups at hok
  dsimp only at hok
  split at hok
  · rename_i he
    simp only [Option.some.injEq, Except.ok.injEq] at hok
    have htags : tags = [] := by
      have hp := rng.shuffle_perm tags
      rw [List.isEmpty_iff.mp he] at hp
      exact (List.Perm.nil_eq hp).symm
    refine ⟨[], [], ?_, ?_, ?_, ?_⟩
    · simp [← hok, extendGroups]
    · simp [← hok]
    · simp [htags]
    · simp
  · split at hok
    · exact absurd hok (by simp)
    · split at hok
      · exact absurd hok (by simp)
      · rename_i r1 hm
        split at hok
        · exact absurd hok (by simp)
        · rename_i r2 hc
          simp only [Option.some.injEq, Except.ok.injEq] at hok
          refine ⟨(formGroups (rng.shuffle tags) 0
              ((List.range groups.length).map rng.poisson)).1,
            (rng.shuffle tags).drop (formGroups (rng.shuffle tags) 0
              ((List.range groups.length).map rng.poisson)).2, ?_, ?_, ?_, ?_⟩
          · rw [← hok]
          · rw [← hok]
          · rw [formGroups_flatten_append_drop]
            simpa using rng.shuffle_perm tags
          · have := formGroups_length_le
              ((List.range groups.length).map rng.poisson) (rng.shuffle tags) 0
            simp only [List.length_map, List.length_range] at this
            omega

theorem extendGroups_length (gs ms : List (Finset Nat)) :
    (extendGroups gs ms).length = gs.length := by
  induction gs generalizing ms with
  | nil => cases ms <;> simp [extendGroups]
  | cons g gs ih =>
    cases ms with
    | nil => simp [extendGroups]
    | cons m ms => simp [extendGroups, ih]

theorem extendGroups_getElem? (gs ms : List (Finset Nat)) (i : Nat) :
    (extendGroups gs ms)[i]? =
      match gs[i]?, ms[i]? with
      | some g, some m => some (g ∪ m)
      | some g, none => some g
      | none, _ => none := by
  induction gs generalizing ms i with
  | nil => cases ms <;> simp [extendGroups]
  | cons g gs ih =>
    cases ms with
    | nil =>
      cases hgi : (g :: gs)[i]? <;> simp [extendGroups, hgi]
    | cons m ms =>
      cases i with
      | zero => simp [extendGroups]
      | succ i => simpa [extendGroups] using ih ms i

/-- Consequences of slicing a duplicate-free tag list: the slices cover the
tags together with the remainder, are pairwise disjoint as sets, and are
disjoint from the remainder. -/
theorem parts_disjoint (gs1 : List (List Nat)) (rest tags : List Nat)
    (hperm : List.Perm (gs1.flatten ++ rest) tags) (hnd : tags.Nodup) :
    (∀ l ∈ gs1, ∀ t ∈ l, t ∈ tags) ∧ (∀ t ∈ rest, t ∈ tags) ∧
    (∀ t ∈ tags, t ∈ rest ∨ ∃ l ∈ gs1, t ∈ l) ∧
    (gs1.map List.toFinset).Pairwise Disjoint ∧
    (∀ l ∈ gs1, List.Disjoint l rest) := by
  have hnd2 : (gs1.flatten ++ rest).Nodup := hperm.nodup_iff.mpr hnd
  rw [List.nodup_append] at hnd2
  obtain ⟨hndf, hndr, hdisj⟩ := hnd2
  rw [List.nodup_flatten] at hndf
  refine ⟨?_, ?_, ?_, ?_, ?_⟩
  · intro l hl t ht
    exact hperm.mem_iff.mp
      (List.mem_append.mpr (Or.inl (List.mem_flatten.mpr ⟨l, hl, ht⟩)))
  · intro t ht
    exact hperm.mem_iff.mp (List.mem_append.mpr (Or.inr ht))
  · intro t ht
    rcases List.mem_append.mp (hperm.mem_iff.mpr ht) with hf | hr
    · exact Or.inr (List.mem_flatten.mp hf)
    · exact Or.inl hr
  · rw [List.pairwise_map]
    refine hndf.2.imp ?_
    intro a b hab
    exact List.disjoint_toFinset_iff_disjoint.mpr hab
  · intro l hl t htl htr
    exact hdisj (List.mem_flatten.mpr ⟨l, hl, htl⟩) htr

theorem extendGroups_mem_cases (gs ms : List (Finset Nat)) (x : Finset Nat)
    (hx : x ∈ extendGroups gs ms) :
    x ∈ gs ∨ ∃ g ∈ gs, ∃ m ∈ ms, x = g ∪ m := by
  induction gs generalizing ms with
  | nil => cases ms <;> simp [extendGroups] at hx
  | cons g gs ih =>
    cases ms with
    | nil => exact Or.inl hx
    | cons m ms =>
      rcases List.mem_cons.mp hx with hx | hx
      · exact Or.inr ⟨g, List.mem_cons_self .., m, List.mem_cons_self .., hx⟩
      · rcases ih ms hx with h | ⟨g', hg', m', hm', hxe⟩
        · exact Or.inl (List.mem_cons_of_mem _ h)
        · exact Or.inr ⟨g', List.mem_cons_of_mem _ hg', m',
            List.mem_cons_of_mem _ hm', hxe⟩

theorem extendGroups_pairwise_disjoint (gs ms : List (Finset Nat))
    (hgs : gs.Pairwise Disjoint) (hms : ms.Pairwise Disjoint)
    (hcross : ∀ g ∈ gs, ∀ m ∈ ms, Disjoint g m) :
    (extendGroups gs ms).Pairwise Disjoint := by
  induction gs generalizing ms with
  | nil => cases ms <;> simp [extendGroups]
  | cons g gs ih =>
    cases ms with
    | nil => exact hgs
    | cons m ms =>
      have hgsc := List.pairwise_cons.mp hgs
      have hmsc := List.pairwise_cons.mp hms
      refine List.pairwise_cons.mpr ⟨?_, ?_⟩
      · intro x hx
        rcases extendGroups_mem_cases gs ms x hx with hxg | ⟨g', hg', m', hm', rfl⟩
        · rw [Finset.disjoint_union_left]
          exact ⟨hgsc.1 x hxg,
            (hcross x (List.mem_cons_of_mem _ hxg) m
              (List.mem_cons_self ..)).symm⟩
        · rw [Finset.disjoint_union_left, Finset.disjoint_union_right,
            Finset.disjoint_union_right]
          exact ⟨⟨hgsc.1 g' hg',
              hcross g (List.mem_cons_self ..) m' (List.mem_cons_of_mem _ hm')⟩,
            (hcross g' (List.mem_cons_of_mem _ hg') m
              (List.mem_cons_self ..)).symm, hmsc.1 m' hm'⟩
      · exact ih ms hgsc.2 hmsc.2 fun g' hg' m' hm' =>
          hcross g' (List.mem_cons_of_mem _ hg') m' (List.mem_cons_of_mem _ hm')

theorem extendGroups_disjoint_right (gs ms : List (Finset Nat)) (o : Finset Nat)
    (hgs : ∀ g ∈ gs, Disjoint g o) (hms : ∀ m ∈ ms, Disjoint m o) :
    ∀ x ∈ extendGroups gs ms, Disjoint x o := by
  intro x hx
  rcases extendGroups_mem_cases gs ms x hx with hxg | ⟨g', hg', m', hm', rfl⟩
  · exact hgs x hxg
  · rw [Finset.disjoint_union_left]
    exact ⟨hgs g' hg', hms m' hm'⟩

theorem extendGroups_subsets (gs ms : List (Finset Nat)) (P : Finset Nat)
    (hgs : ∀ g ∈ gs, g ⊆ P) (hms : ∀ m ∈ ms, m ⊆ P) :
    ∀ x ∈ extendGroups gs ms, x ⊆ P := by
  intro x hx
  rcases extendGroups_mem_cases gs ms x hx with hxg | ⟨g', hg', m', hm', rfl⟩
  · exact hgs x hxg
  · exact Finset.union_subset (hgs g' hg') (hms m' hm')

theorem extendGroups_covers_groups (gs ms : List (Finset Nat)) :
    ∀ g ∈ gs, ∃ x ∈ extendGroups gs ms, g ⊆ x := by
  induction gs generalizing ms with
  | nil => simp
  | cons g gs ih =>
    cases ms with
    | nil =>
      intro g' hg'
      exact ⟨g', by simpa [extendGroups] using hg', le_refl g'⟩
    | cons m ms =>
      intro g' hg'
      rcases List.mem_cons.mp hg' with rfl | hg'
      · exact ⟨g' ∪ m, List.mem_cons_self .., Finset.subset_union_left⟩
      · obtain ⟨x, hx, hsub⟩ := ih ms g' hg'
        exact ⟨x, List.mem_cons_of_mem _ hx, hsub⟩

theorem extendGroups_covers_members (gs ms : List (Finset Nat)) :
    ∀ i m, ms[i]? = some m → i < gs.length →
      ∃ x ∈ extendGroups gs ms, m ⊆ x := by
  induction gs generalizing ms with
  | nil => intro i m _ hi; simp at hi
  | cons g gs ih =>
    cases ms with
    | nil => intro i m hm _; simp at hm
    | cons m' ms =>
      intro i m hm hi
      cases i with
      | zero =>
        simp only [List.getElem?_cons_zero, Option.some.injEq] at hm
        exact ⟨g ∪ m', List.mem_cons_self .., by
          rw [← hm]; exact Finset.subset_union_right⟩
      | succ i =>
        simp only [List.getElem?_cons_succ] at hm
        obtain ⟨x, hx, hsub⟩ := ih ms i m hm (by simpa using hi)
        exact ⟨x, List.mem_cons_of_mem _ hx, hsub⟩

/-- Preservation of the auxiliary invariant under appending freshly formed
groups (the shape shared by `add_new_tag_groups` calls and orphan drains). -/
theorem tagInvAux_append (st : SimTagState) (inv : TagInvAux st)
    (pop' os0 : Finset Nat) (T : List Nat)
    (gs1 : List (List Nat)) (rest : List Nat)
    (hndT : T.Nodup)
    (hperm : List.Perm (gs1.flatten ++ rest) T)
    (hpop : ∀ t, t ∈ pop' ↔ t ∈ st.pop ∨ t ∈ T)
    (hcover0 : ∀ t ∈ st.pop, t ∉ T → t ∈ os0 ∨ ∃ g ∈ st.groups, t ∈ g)
    (hTG : ∀ t ∈ T, ∀ g ∈ st.groups, t ∉ g)
    (hTo : ∀ t ∈ T, t ∉ os0)
    (hos0 : ∀ t ∈ os0, t ∈ pop')
    (hdisjO0 : ∀ g ∈ st.groups, Disjoint g os0) :
    TagInvAux ⟨pop', st.groups ++ gs1.map List.toFinset,
      os0 ∪ rest.toFinset⟩ := by
  obtain ⟨hsubG, hsubR, hcov, hpwNew, hdisjR⟩ :=
    parts_disjoint gs1 rest T hperm hndT
  have hTmem : ∀ t ∈ T, t ∈ pop' := fun t ht => (hpop t).mpr (Or.inr ht)
  refine ⟨?_, ?_, ?_, ?_, ?_⟩
  · intro t ht
    by_cases htT : t ∈ T
    · rcases hcov t htT with hr | ⟨l, hl, htl⟩
      · exact Or.inl (Finset.mem_union_right _ (List.mem_toFinset.mpr hr))
      · exact Or.inr ⟨l.toFinset, List.mem_append.mpr
          (Or.inr (List.mem_map_of_mem _ hl)), List.mem_toFinset.mpr htl⟩
    · rcases (hpop t).mp ht with hp | hT'
      · rcases hcover0 t hp htT with h0 | ⟨g, hg, htg⟩
        · exact Or.inl (Finset.mem_union_left _ h0)
        · exact Or.inr ⟨g, List.mem_append.mpr (Or.inl hg), htg⟩
      · exact absurd hT' htT
  · intro g hg
    rcases List.mem_append.mp hg with hgo | hgn
    · exact fun t htg => (hpop t).mpr (Or.inl (inv.groups_sub g hgo htg))
    · obtain ⟨l, hl, rfl⟩ := List.mem_map.mp hgn
      exact fun t htg =>
        hTmem t (hsubG l hl t (List.mem_toFinset.mp htg))
  · intro t ht
    rcases Finset.mem_union.mp ht with h0 | hr
    · exact hos0 t h0
    · exact hTmem t (hsubR t (List.mem_toFinset.mp hr))
  · rw [List.pairwise_append]
    refine ⟨inv.disjG, hpwNew, ?_⟩
    intro g hgo x hxn
    obtain ⟨l, hl, rfl⟩ := List.mem_map.mp hxn
    rw [Finset.disjoint_left]
    intro a hag hal
    exact hTG a (hsubG l hl a (List.mem_toFinset.mp hal)) g hgo hag
  · intro g hg
    rcases List.mem_append.mp hg with hgo | hgn
    · rw [Finset.disjoint_union_right]
      refine ⟨hdisjO0 g hgo, ?_⟩
      rw [Finset.disjoint_left]
      intro a hag har
      exact hTG a (hsubR a (List.mem_toFinset.mp har)) g hgo hag
    · obtain ⟨l, hl, rfl⟩ := List.mem_map.mp hgn
      rw [Finset.disjoint_union_right]
      constructor
      · rw [Finset.disjoint_left]
        intro a hal ha0
        exact hTo a (hsubG l hl a (List.mem_toFinset.mp hal)) ha0
      · exact List.disjoint_toFinset_iff_disjoint.mpr (hdisjR l hl)

/-- Preservation of the auxiliary invariant under `add_to_tag_groups`:
fresh tags are absorbed group-by-group through `extendGroups`, leftovers
join the orphan set. -/
theorem tagInvAux_toGroups (st : SimTagState) (inv : TagInvAux st)
    (T : List Nat) (ms : List (List Nat)) (rest : List Nat)
    (hndT : T.Nodup) (hfresh : ∀ t ∈ T, t ∉ st.pop)
    (hperm : List.Perm (ms.flatten ++ rest) T)
    (hlen : ms.length ≤ st.groups.length) :
    TagInvAux ⟨st.pop ∪ T.toFinset,
      extendGroups st.groups (ms.map List.toFinset),
      st.orphans ∪ rest.toFinset⟩ := by
  obtain ⟨hsubG, hsubR, hcov, hpwNew, hdisjR⟩ :=
    parts_disjoint ms rest T hperm hndT
  have hmsF : ∀ m ∈ ms.map List.toFinset, ∀ t ∈ m, t ∈ T := by
    intro m hm t htm
    obtain ⟨l, hl, rfl⟩ := List.mem_map.mp hm
    exact hsubG l hl t (List.mem_toFinset.mp htm)
  refine ⟨?_, ?_, ?_, ?_, ?_⟩
  · intro t ht
    rcases Finset.mem_union.mp ht with hp | hT
    · rcases inv.cover t hp with ho | ⟨g, hg, htg⟩
      · exact Or.inl (Finset.mem_union_left _ ho)
      · obtain ⟨x, hx, hsub⟩ :=
          extendGroups_covers_groups st.groups (ms.map List.toFinset) g hg
        exact Or.inr ⟨x, hx, hsub htg⟩
    · rcases hcov t (List.mem_toFinset.mp hT) with hr | ⟨l, hl, htl⟩
      · exact Or.inl (Finset.mem_union_right _ (List.mem_toFinset.mpr hr))
      · obtain ⟨⟨i, hi⟩, rfl⟩ := List.mem_iff_get.mp hl
        have hms : (ms.map List.toFinset)[i]?
            = some (ms.get ⟨i, hi⟩).toFinset := by
          rw [List.getElem?_map, List.getElem?_eq_getElem hi]
          simp
        obtain ⟨x, hx, hsub⟩ := extendGroups_covers_members st.groups
          (ms.map List.toFinset) i (ms.get ⟨i, hi⟩).toFinset hms
          (by omega)
        exact Or.inr ⟨x, hx, hsub (List.mem_toFinset.mpr htl)⟩
  · exact extendGroups_subsets st.groups (ms.map List.toFinset) _
      (fun g hg => fun t htg =>
        Finset.mem_union_left _ (inv.groups_sub g hg htg))
      (fun m hm => fun t htm =>
        Finset.mem_union_right _ (List.mem_toFinset.mpr (hmsF m hm t htm)))
  · intro t ht
    rcases Finset.mem_union.mp ht with ho | hr
    · exact Finset.mem_union_left _ (inv.orphans_sub ho)
    · exact Finset.mem_union_right _ (List.mem_toFinset.mpr
        (hsubR t (List.mem_toFinset.mp hr)))
  · refine extendGroups_pairwise_disjoint st.groups (ms.map List.toFinset)
      inv.disjG hpwNew ?_
    intro g hg m hm
    rw [Finset.disjoint_left]
    intro a hag ham
    exact hfresh a (hmsF m hm a ham) (inv.groups_sub g hg hag)
  · refine extendGroups_disjoint_right st.groups (ms.map List.toFinset) _
      ?_ ?_
    · intro g hg
      rw [Finset.disjoint_union_right]
      refine ⟨inv.disjO g hg, ?_⟩
      rw [Finset.disjoint_left]
      intro a hag har
      exact hfresh a (hsubR a (List.mem_toFinset.mp har))
        (inv.groups_sub g hg hag)
    · intro m hm
      rw [Finset.disjoint_union_right]
      constructor
      · rw [Finset.disjoint_left]
        intro a ham hao
        exact hfresh a (hmsF m hm a ham) (inv.orphans_sub hao)
      · obtain ⟨l, hl, rfl⟩ := List.mem_map.mp hm
        exact List.disjoint_toFinset_iff_disjoint.mpr (hdisjR l hl)

theorem hashOrder_enum_toFinset (ord : HashOrder) (s : Finset Nat) :
    (ord.enum s).toFinset = s := by
  ext x
  rw [List.mem_toFinset, ord.enum_mem]

theorem simStep_preserves (st st' : SimTagState) (inv : TagInvAux st)
    (h : SimStep st st') : TagInvAux st' := by
  cases h with
  | newGroups rng ord edges maxGroups tags out hnd hfresh hok =>
    obtain ⟨gs1, rest, hg, ho, hperm⟩ :=
      add_new_tag_groups_ok_parts rng ord edges st.groups st.orphans
        maxGroups tags out hok
    rw [hg, ho]
    refine tagInvAux_append st inv (st.pop ∪ tags.toFinset) st.orphans tags
      gs1 rest hnd hperm ?_ ?_ ?_ ?_ ?_ inv.disjO
    · intro t
      simp [Finset.mem_union, List.mem_toFinset]
    · exact fun t ht _ => inv.cover t ht
    · exact fun t ht g hg htg => hfresh t ht (inv.groups_sub g hg htg)
    · exact fun t ht ho => hfresh t ht (inv.orphans_sub ho)
    · exact fun t ht => Finset.mem_union_left _ (inv.orphans_sub ht)
  | toGroups rng ord edges tags out hnd hfresh hok =>
    obtain ⟨ms, rest, hg, ho, hperm, hlen⟩ :=
      add_to_tag_groups_ok_parts rng ord edges st.groups st.orphans tags out
        hok
    rw [hg, ho]
    exact tagInvAux_toGroups st inv tags ms rest hnd hfresh hperm hlen
  | drain rng ord edges maxGroups threshold out hth hok =>
    obtain ⟨gs1, rest, hg, ho, hperm⟩ :=
      add_new_tag_groups_ok_parts rng ord edges st.groups ∅ maxGroups
        (ord.enum st.orphans) out hok
    rw [hg, ho]
    have horph : ∀ t, t ∈ ord.enum st.orphans ↔ t ∈ st.orphans :=
      fun t => ord.enum_mem st.orphans t
    have hinv := tagInvAux_append st inv st.pop ∅ (ord.enum st.orphans)
      gs1 rest (ord.enum_nodup st.orphans) hperm ?_ ?_ ?_ ?_ ?_ ?_
    · have hempty : (∅ : Finset Nat) ∪ rest.toFinset = rest.toFinset := by
        simp
      rw [hempty] at hinv
      have hempty2 : (∅ : Finset Nat) ∪ rest.toFinset = rest.toFinset := by
        simp
      rw [show (⟨st.pop, st.groups ++ gs1.map List.toFinset,
          ∅ ∪ rest.toFinset⟩ : SimTagState)
        = ⟨st.pop, st.groups ++ gs1.map List.toFinset, rest.toFinset⟩ by
          rw [hempty2]]
      exact hinv
    · intro t
      constructor
      · exact fun ht => Or.inl ht
      · intro ht
        rcases ht with ht | ht
        · exact ht
        · exact inv.orphans_sub ((horph t).mp ht)
    · intro t ht htT
      rcases inv.cover t ht with ho2 | hg2
      · exact absurd ((horph t).mpr ho2) htT
      · exact Or.inr hg2
    · intro t ht g hg htg
      exact (Finset.disjoint_left.mp (inv.disjO g hg) htg) ((horph t).mp ht)
    · intro t _ ht
      exact absurd ht (Finset.not_mem_empty t)
    · intro t ht
      exact absurd ht (Finset.not_mem_empty t)
    · intro g _
      exact Finset.disjoint_empty_right g

theorem simReachable_invAux (st : SimTagState) (h : SimReachable st) :
    TagInvAux st := by
  unfold SimReachable at h
  induction h with
  | refl =>
    exact ⟨fun t ht => absurd ht (Finset.not_mem_empty t),
      fun g hg => absurd hg (List.not_mem_nil g),
      fun t ht => ht, List.Pairwise.nil,
      fun g hg => absurd hg (List.not_mem_nil g)⟩
  | tail hab hbc ih => exact simStep_preserves _ _ ih hbc

/-- Claim C7.  In every state of the tag bookkeeping reachable by public calls
(tag introduction through group formation or growth, and orphan draining),
every tag of the population is either a member of exactly one tag group and
not orphaned, or a member of no group and orphaned — never both, never
neither. -/
theorem tag_partition_invariant (st : SimTagState) (h : SimReachable st) :
    TagPartition st := by
  have inv := simReachable_invAux st h
  intro t ht
  rcases inv.cover t ht with ho | ⟨g, hg, htg⟩
  · refine Or.inr ⟨?_, ho⟩
    intro g hg htg
    exact (Finset.disjoint_left.mp (inv.disjO g hg) htg) ho
  · obtain ⟨i, hget⟩ := List.mem_iff_get.mp hg
    refine Or.inl ⟨⟨i, ?_, ?_⟩, ?_⟩
    · show t ∈ st.groups.get i
      rw [hget]; exact htg
    · intro j htj
      by_contra hne
      rcases Nat.lt_trichotomy j.1 i.1 with hlt | heq | hgt
      · exact (Finset.disjoint_left.mp
          (List.pairwise_iff_get.mp inv.disjG j i hlt) htj) (hget ▸ htg)
      · exact hne (Fin.ext heq)
      · exact (Finset.disjoint_left.mp
          (List.pairwise_iff_get.mp inv.disjG i j hgt) (hget ▸ htg)) htj
    · intro ho
      exact (Finset.disjoint_left.mp (inv.disjO g hg) htg) ho

/-- Witness for C7: the empty initial simulation state is reachable, and the
partition property holds of it. -/
theorem tag_partition_invariant_witness :
    TagPartition ⟨∅, [], ∅⟩ :=
  tag_partition_invariant ⟨∅, [], ∅⟩ Relation.ReflTransGen.refl
